import Mathlib

/-!
Verification of the brainfuck interpreter in `src/main.rs`.

The interpreter has two stages:
* `parse` filters the source bytes to the eight instruction characters and
  resolves bracket pairs into absolute jump targets with an auxiliary stack;
* `run` walks the resulting instruction list against a 65536-cell byte tape,
  a data pointer and a program counter, reading from an input byte stream and
  writing to an output byte stream.

The embedding below follows the Rust source line by line.  Machine integers
are modelled as `Nat` with explicit reductions: cell values are reduced
modulo 256 where the source uses `wrapping_add`/`wrapping_sub` on `u8`, and
the data pointer follows the release-profile semantics of `usize` arithmetic
(wrapping modulo 2^64); an indexing operation `tape[ptr]` with
`ptr ≥ 65536` is a panic, modelled as the `none` outcome of a step.
-/

set_option maxRecDepth 100000

namespace Bf

/-- The instruction type: `BfOp` from the source, with the bracket payloads
(`usize` jump targets) as `Nat`. -/
inductive BfOp where
  | Gt
  | Lt
  | Plus
  | Minus
  | Dot
  | Comma
  | LBracket (i : Nat)
  | RBracket (i : Nat)
  deriving DecidableEq, Repr

/-- The parse error type: `ParseError` from the source. -/
inductive ParseError where
  | UnmatchedLeftBracket
  | UnmatchedRightBracket
  deriving DecidableEq, Repr

open BfOp ParseError

/-- The byte-to-instruction table: the `filter_map` closure in `parse`.
Bytes are `Nat` codes; 62 is the code of the character GT, 60 LT, 43 plus,
45 minus, 46 dot, 44 comma, 91 left bracket, 93 right bracket. -/
def charToOp (c : Nat) : Option BfOp :=
  if c = 62 then some Gt
  else if c = 60 then some Lt
  else if c = 43 then some Plus
  else if c = 45 then some Minus
  else if c = 46 then some Dot
  else if c = 44 then some Comma
  else if c = 91 then some (LBracket 0)
  else if c = 93 then some (RBracket 0)
  else none

/-- First pass of `parse`: `code.bytes().filter_map(...).collect()`. -/
def tokenize (code : List Nat) : List BfOp :=
  code.filterMap charToOp

/-- Second pass of `parse`: the `for i in 0..instrs.len()` loop, carrying the
auxiliary stack `brackets` (head = top of stack, as the `Vec` used with
`push`/`pop`).  On a right bracket, the popped index `j` and the current
index `i` are backpatched into each other.  The loop runs exactly
`instrs.len()` times; `n` counts the remaining iterations, so the loop is
structural recursion on `n` with `i` the current index (`parse` passes
`n = instrs.length` and `i = 0`, and `List.set` preserves length, so `get?`
always hits).  After the last iteration the stack is checked. -/
def resolveFrom (instrs : List BfOp) (brackets : List Nat) (i : Nat) :
    Nat → Except ParseError (List BfOp)
  | 0 => if brackets.isEmpty then .ok instrs else .error UnmatchedLeftBracket
  | n + 1 =>
    match instrs[i]? with
    | some (LBracket _) => resolveFrom instrs (i :: brackets) (i + 1) n
    | some (RBracket _) =>
      match brackets with
      | [] => .error UnmatchedRightBracket
      | j :: rest =>
        resolveFrom ((instrs.set j (LBracket i)).set i (RBracket j)) rest (i + 1) n
    | _ => resolveFrom instrs brackets (i + 1) n

/-- The function `parse` from the source: tokenize, then resolve brackets
starting from an empty stack at index 0. -/
def parse (code : List Nat) : Except ParseError (List BfOp) :=
  resolveFrom (tokenize code) [] 0 (tokenize code).length

/-- The tape length: `1 << 16` in the source. -/
def TAPE_LEN : Nat := 65536

/-- The modulus of `usize` arithmetic on a 64-bit target. -/
def USIZE_MOD : Nat := 18446744073709551616

/-- The executor state: program counter, data pointer, tape contents, the
remaining input byte stream, and the bytes written to the output so far. -/
structure BfState where
  pc : Nat
  ptr : Nat
  tape : Nat → Nat
  input : List Nat
  output : List Nat

/-- Point update of the tape: `tape[p] = v`. -/
def writeTape (t : Nat → Nat) (p v : Nat) : Nat → Nat :=
  fun i => if i = p then v else t i

/-- One iteration of the `while` loop body in `run`, for instruction `op`.
`none` models a panic: an access `tape[ptr]` with the pointer outside the
tape.  Pointer arithmetic (`ptr += 1`, `ptr -= 1` on `usize`) wraps modulo
2^64 as in a release build; cell arithmetic (`wrapping_add`/`wrapping_sub`
on `u8`) wraps modulo 256.  `Comma` zeroes the cell and then `read` fills it
with the next input byte when one exists (end of input reads 0 bytes and is
not an error). -/
def execOp (op : BfOp) (s : BfState) : Option BfState :=
  match op with
  | Gt => some { s with ptr := (s.ptr + 1) % USIZE_MOD, pc := s.pc + 1 }
  | Lt => some { s with ptr := (s.ptr + (USIZE_MOD - 1)) % USIZE_MOD, pc := s.pc + 1 }
  | Plus =>
    if s.ptr < TAPE_LEN then
      some { s with tape := writeTape s.tape s.ptr ((s.tape s.ptr + 1) % 256),
                    pc := s.pc + 1 }
    else none
  | Minus =>
    if s.ptr < TAPE_LEN then
      some { s with tape := writeTape s.tape s.ptr ((s.tape s.ptr + 255) % 256),
                    pc := s.pc + 1 }
    else none
  | Dot =>
    if s.ptr < TAPE_LEN then
      some { s with output := s.output ++ [s.tape s.ptr], pc := s.pc + 1 }
    else none
  | Comma =>
    if s.ptr < TAPE_LEN then
      match s.input with
      | [] => some { s with tape := writeTape s.tape s.ptr 0, pc := s.pc + 1 }
      | b :: rest =>
        some { s with tape := writeTape s.tape s.ptr b, input := rest, pc := s.pc + 1 }
    else none
  | LBracket i =>
    if s.ptr < TAPE_LEN then
      some { s with pc := if s.tape s.ptr = 0 then i + 1 else s.pc + 1 }
    else none
  | RBracket i =>
    if s.ptr < TAPE_LEN then
      some { s with pc := if s.tape s.ptr ≠ 0 then i + 1 else s.pc + 1 }
    else none

/-- Outcome of running the `while` loop for a bounded number of iterations. -/
inductive RunResult where
  | halted (s : BfState)
  | panicked
  | outOfFuel (s : BfState)

/-- The `while pc < instrs.len()` loop of `run`, with explicit fuel.
`instrs.get? s.pc = none` is exactly the loop condition failing, so the run
halts there. -/
def execN (instrs : List BfOp) : Nat → BfState → RunResult
  | 0, s => .outOfFuel s
  | fuel + 1, s =>
    match instrs[s.pc]? with
    | none => .halted s
    | some op =>
      match execOp op s with
      | some s2 => execN instrs fuel s2
      | none => .panicked

/-- The initial executor state: `pc = 0`, `ptr = 0`, all-zero tape, no output
yet, with `inp` the byte stream standing for standard input. -/
def initState (inp : List Nat) : BfState :=
  { pc := 0, ptr := 0, tape := fun _ => 0, input := inp, output := [] }

/-- The function `run` from the source, specialised to in-memory streams:
parse, then execute from the initial state with the given fuel. -/
def run (code : List Nat) (inp : List Nat) (fuel : Nat) :
    Except ParseError RunResult :=
  (parse code).map (fun instrs => execN instrs fuel (initState inp))

/-- The output of a halted run, `none` when the run panicked or ran out of
fuel. -/
def RunResult.outputOf : RunResult → Option (List Nat)
  | .halted s => some s.output
  | _ => none

/-- The tape cell at index `i` after a halted run. -/
def RunResult.tapeAt : RunResult → Nat → Option Nat
  | .halted s, i => some (s.tape i)
  | _, _ => none

/-- Bytes written by a complete (halted) run of `code` on input `inp`. -/
def runOutput (code inp : List Nat) (fuel : Nat) : Option (List Nat) :=
  match parse code with
  | .error _ => none
  | .ok instrs => (execN instrs fuel (initState inp)).outputOf

/-- Tape cell `i` after a complete (halted) run of `code` on input `inp`. -/
def runTapeAt (code inp : List Nat) (fuel i : Nat) : Option Nat :=
  match parse code with
  | .error _ => none
  | .ok instrs => (execN instrs fuel (initState inp)).tapeAt i

/-- The byte list of an ASCII source string. -/
def bytesOf (s : String) : List Nat :=
  s.toList.map Char.toNat

/-- The classic hello-world source from the specification. -/
def helloSrc : List Nat :=
  bytesOf "++++++++[>++++[>++>+++>+++>+<<<<-]>+>+>->>+[<]<-]>>.>---.+++++++..+++.>>.<-.<.+++.------.--------.>>+.>++."

/-- The byte codes of the eight instruction characters, in the order the
specification lists them. -/
def instrBytes : List Nat := [62, 60, 43, 45, 46, 44, 91, 93]

/-- Whether an instruction is a (resolved or unresolved) left bracket. -/
def isLB : BfOp → Bool
  | LBracket _ => true
  | _ => false

/-- Whether an instruction is a (resolved or unresolved) right bracket. -/
def isRB : BfOp → Bool
  | RBracket _ => true
  | _ => false

/-- Number of left brackets in an instruction list. -/
def opensIn (l : List BfOp) : Nat := l.countP isLB

/-- Number of right brackets in an instruction list. -/
def closesIn (l : List BfOp) : Nat := l.countP isRB

/-- The mutual bracket-pairing invariant of a parsed program: every
`LBracket` at `i` with payload `j` is matched by `RBracket` at `j` with
payload `i`, and vice versa. -/
def WellPaired (p : List BfOp) : Prop :=
  (∀ i j, p[i]? = some (LBracket j) → p[j]? = some (RBracket i)) ∧
  (∀ i j, p[i]? = some (RBracket j) → p[j]? = some (LBracket i))

/-- Loop invariant of the bracket-resolution pass, at the start of the
iteration for index `i`: the pending stack holds indices of unresolved left
brackets below `i`, strictly decreasing from the top; and every bracket
below `i` that is not pending is fully resolved into a mutual pair whose
endpoints both lie below `i` and off the stack. -/
def ResolveInv (instrs : List BfOp) (brackets : List Nat) (i : Nat) : Prop :=
  (∀ k ∈ brackets, k < i ∧ ∃ t, instrs[k]? = some (LBracket t)) ∧
  brackets.Pairwise (fun a b => b < a) ∧
  (∀ a, a < i → a ∉ brackets →
    (∀ b, instrs[a]? = some (LBracket b) → instrs[b]? = some (RBracket a) ∧ b < i) ∧
    (∀ b, instrs[a]? = some (RBracket b) →
      instrs[b]? = some (LBracket a) ∧ b < i ∧ b ∉ brackets))

/-- Counting invariant of the bracket-resolution pass: the pending stack
holds left brackets, its size is the bracket surplus of the processed
prefix, and no processed prefix has a right-bracket surplus. -/
def CountInv (instrs : List BfOp) (brackets : List Nat) (i : Nat) : Prop :=
  (∀ k ∈ brackets, ∃ t, instrs[k]? = some (LBracket t)) ∧
  brackets.length + closesIn (instrs.take i) = opensIn (instrs.take i) ∧
  (∀ m, m ≤ i → closesIn (instrs.take m) ≤ opensIn (instrs.take m))

/-! ## Theorems -/

/-- C2: the classic hello-world source halts from the initial state and
writes exactly the 13 bytes of the string Hello World with a trailing
newline to the output sink. -/
theorem hello_world_run :
    runOutput helloSrc [] 1000 = some (bytesOf "Hello World!\n") ∧
    (bytesOf "Hello World!\n").length = 13 := by
  constructor
  · rfl
  · rfl

/-- C3: cell arithmetic is wrapping modulo 256: `Plus` sets the current
cell to its value plus one modulo 256, `Minus` to its value minus one
modulo 256 (stated over `Int` so that the subtraction is genuine); 256
consecutive `Plus` instructions starting from a zero cell return it to 0,
and a single `Minus` on a zero cell yields 255. -/
theorem cell_wraparound :
    (∀ s : BfState, s.ptr < TAPE_LEN →
      (execOp Plus s).map (fun s2 => s2.tape s.ptr) =
        some ((s.tape s.ptr + 1) % 256)) ∧
    (∀ s : BfState, s.ptr < TAPE_LEN →
      (execOp Minus s).map (fun s2 => (s2.tape s.ptr : Int)) =
        some (((s.tape s.ptr : Int) - 1) % 256)) ∧
    (execN (List.replicate 256 Plus) 300 (initState [])).tapeAt 0 = some 0 ∧
    (execN [Minus] 2 (initState [])).tapeAt 0 = some 255 := by
  refine ⟨?_, ?_, by rfl, by rfl⟩
  · intro s h
    simp [execOp, h, writeTape]
  · intro s h
    simp [execOp, h, writeTape]
    omega

/-- Witness for C3 at the initial state: incrementing the zero cell at
pointer 0 gives 1, decrementing gives 255. -/
theorem cell_wraparound_witness :
    (execOp Plus (initState [])).map (fun s2 => s2.tape 0) = some 1 := by
  have h := cell_wraparound.1 (initState []) (by decide)
  simpa using h

/-- C4 counterexample: from a state with the data pointer at the tape's
final index 65535, executing `Gt` (MoveRight) and then `Plus` (which
accesses the current cell) panics with an out-of-bounds tape access: the
run aborts instead of continuing. -/
theorem ptr_past_end_aborts :
    execN [Gt, Plus] 3
      { pc := 0, ptr := 65535, tape := fun _ => 0, input := [], output := [] } =
      .panicked := by
  rfl

/-- C4 amended: pointer motion itself is never trapped — `Gt` and `Lt`
always succeed, `Lt` at pointer 0 wraps to 2^64 − 1 per 64-bit unsigned
index arithmetic, and `Gt` at 65535 moves to 65536 — but any instruction
that then accesses the current cell with the pointer at or past the tape
length aborts the run (modelled as `none`, the out-of-bounds panic). -/
theorem ptr_motion_unchecked :
    (∀ s : BfState, (execOp Gt s).isSome ∧ (execOp Lt s).isSome) ∧
    (∀ s : BfState, s.ptr = 0 →
      (execOp Lt s).map (fun s2 => s2.ptr) = some (USIZE_MOD - 1)) ∧
    (∀ s : BfState, s.ptr = 65535 →
      (execOp Gt s).map (fun s2 => s2.ptr) = some 65536) ∧
    (∀ s : BfState, TAPE_LEN ≤ s.ptr →
      execOp Plus s = none ∧ execOp Minus s = none ∧ execOp Dot s = none ∧
      execOp Comma s = none ∧
      (∀ t : Nat, execOp (LBracket t) s = none) ∧
      (∀ t : Nat, execOp (RBracket t) s = none)) := by
  refine ⟨?_, ?_, ?_, ?_⟩
  · intro s
    exact ⟨rfl, rfl⟩
  · intro s h
    simp only [execOp, h, Option.map_some]
    congr 1
  · intro s h
    simp only [execOp, h, Option.map_some]
    congr 1
  · intro s h
    have h2 := Nat.not_lt.2 h
    refine ⟨?_, ?_, ?_, ?_, ?_, ?_⟩
    · simp [execOp, h2]
    · simp [execOp, h2]
    · simp [execOp, h2]
    · simp [execOp, h2]
    · intro t
      simp [execOp, h2]
    · intro t
      simp [execOp, h2]

/-- Witness for the amended C4 at concrete states: `Lt` at pointer 0 wraps
to 2^64 − 1, and at pointer 65536 every cell-accessing instruction
(`Plus`, `Minus`, `Dot`, `Comma` and both jumps) panics. -/
theorem ptr_motion_unchecked_witness :
    (execOp Lt (initState [])).map (fun s2 => s2.ptr) = some (USIZE_MOD - 1) ∧
    execOp Plus
      { pc := 0, ptr := 65536, tape := fun _ => 0, input := [], output := [] } =
      none ∧
    execOp Dot
      { pc := 0, ptr := 65536, tape := fun _ => 0, input := [], output := [] } =
      none ∧
    execOp (RBracket 0)
      { pc := 0, ptr := 65536, tape := fun _ => 0, input := [], output := [] } =
      none :=
  ⟨ptr_motion_unchecked.2.1 (initState []) rfl,
   (ptr_motion_unchecked.2.2.2 _ (by decide)).1,
   (ptr_motion_unchecked.2.2.2 _ (by decide)).2.2.1,
   (ptr_motion_unchecked.2.2.2 _ (by decide)).2.2.2.2.2 0⟩

/-- C7: input exhaustion is not an error: executing `Comma` with an empty
input stream zeroes the current cell and execution continues normally (the
step succeeds and the program counter advances by one). -/
theorem input_exhaustion (s : BfState) (h : s.ptr < TAPE_LEN)
    (hin : s.input = []) :
    execOp Comma s =
      some { s with tape := writeTape s.tape s.ptr 0, pc := s.pc + 1 } ∧
    (execOp Comma s).map (fun s2 => s2.tape s.ptr) = some 0 := by
  constructor
  · simp [execOp, h, hin]
  · simp [execOp, h, hin, writeTape]

/-- Witness for C7 at the initial state with empty input. -/
theorem input_exhaustion_witness :
    (execOp Comma (initState [])).map (fun s2 => s2.tape 0) = some 0 :=
  (input_exhaustion (initState []) (by decide) rfl).2

/-- C8: the program `"+[-]"` halts from the initial state and leaves the
cell at data-pointer index 0 holding 0. -/
theorem plus_loop_halts :
    runTapeAt (bytesOf "+[-]") [] 20 0 = some 0 := by
  rfl

/-- A byte maps to an instruction exactly when it is one of the eight
instruction characters. -/
theorem charToOp_isSome (b : Nat) :
    (charToOp b).isSome = decide (b ∈ instrBytes) := by
  simp only [charToOp, instrBytes]
  split_ifs with h1 h2 h3 h4 h5 h6 h7 h8 <;> simp_all

/-- Dropping the bytes that map to no instruction does not change the token
list. -/
theorem tokenize_filter_instr (code : List Nat) :
    tokenize (code.filter fun b => (charToOp b).isSome) = tokenize code := by
  induction code with
  | nil => rfl
  | cons b t ih =>
    by_cases h : (charToOp b).isSome
    · obtain ⟨op, hop⟩ := Option.isSome_iff_exists.mp h
      simpa [tokenize, List.filter_cons, h, List.filterMap_cons, hop] using ih
    · simpa [tokenize, List.filter_cons, h, List.filterMap_cons,
        Option.not_isSome_iff_eq_none.mp h] using ih

/-- C5: non-instruction bytes are inert: parsing any source yields exactly
the same result (program or error) as parsing the source with every byte
other than the eight instruction characters removed. -/
theorem parse_noninstr_inert (code : List Nat) :
    parse code = parse (code.filter fun b => decide (b ∈ instrBytes)) := by
  have hfilter : code.filter (fun b => decide (b ∈ instrBytes)) =
      code.filter fun b => (charToOp b).isSome :=
    List.filter_congr fun a _ => (charToOp_isSome a).symm
  rw [hfilter]
  unfold parse
  rw [tokenize_filter_instr]

/-- The bracket-resolution pass never changes the length of the
instruction list. -/
theorem resolveFrom_ok_length :
    ∀ (n : Nat) (instrs : List BfOp) (brackets : List Nat) (i : Nat)
      (out : List BfOp), resolveFrom instrs brackets i n = .ok out →
      out.length = instrs.length := by
  intro n
  induction n with
  | zero =>
    intro instrs brackets i out h
    simp only [resolveFrom] at h
    split at h
    · cases h
      rfl
    · cases h
  | succ n ih =>
    intro instrs brackets i out h
    simp only [resolveFrom] at h
    split at h
    · exact ih _ _ _ _ h
    · split at h
      · cases h
      · have := ih _ _ _ _ h
        simpa using this
    · exact ih _ _ _ _ h

/-- C9: for every source on which `parse` succeeds, the program length is
the number of source bytes that are one of the eight instruction
characters; every other byte produces no instruction. -/
theorem parse_length_counts (code : List Nat) (p : List BfOp)
    (h : parse code = .ok p) :
    p.length = code.countP fun b => decide (b ∈ instrBytes) := by
  have h1 : p.length = (tokenize code).length :=
    resolveFrom_ok_length _ _ _ _ _ h
  rw [h1, tokenize, List.length_filterMap_eq_countP]
  exact List.countP_congr fun a _ => by rw [charToOp_isSome a]

/-- Witness for C9 on the source `"[]"`: the parsed program has length 2,
the number of instruction bytes. -/
theorem parse_length_counts_witness :
    ([LBracket 1, RBracket 0] : List BfOp).length =
      (bytesOf "[]").countP fun b => decide (b ∈ instrBytes) :=
  parse_length_counts (bytesOf "[]") [LBracket 1, RBracket 0] rfl

/-- An index that `getElem?` answers is in range. -/
theorem lt_of_getElem?_some {l : List BfOp} {i : Nat} {a : BfOp}
    (h : l[i]? = some a) : i < l.length := by
  rcases List.getElem?_eq_some_iff.mp h with ⟨h1, _⟩
  exact h1

/-- The bracket-resolution pass preserves `ResolveInv` and, on success,
produces a well-paired program. -/
theorem resolveFrom_ok_wellPaired :
    ∀ (n : Nat) (instrs : List BfOp) (brackets : List Nat) (i : Nat)
      (out : List BfOp),
      i + n = instrs.length →
      ResolveInv instrs brackets i →
      resolveFrom instrs brackets i n = .ok out →
      WellPaired out := by
  intro n
  induction n with
  | zero =>
    intro instrs brackets i out hlen hinv h
    simp only [resolveFrom] at h
    split at h
    case isTrue hemp =>
      cases h
      obtain ⟨h1, h2, h3⟩ := hinv
      have hbr : brackets = [] := List.isEmpty_iff.mp hemp
      subst hbr
      constructor
      · intro a b hab
        have ha : a < instrs.length := lt_of_getElem?_some hab
        exact ((h3 a (by omega) (List.not_mem_nil a)).1 b hab).1
      · intro a b hab
        have ha : a < instrs.length := lt_of_getElem?_some hab
        exact ((h3 a (by omega) (List.not_mem_nil a)).2 b hab).1
    case isFalse => cases h
  | succ n ih =>
    intro instrs brackets i out hlen hinv h
    have hilt : i < instrs.length := by omega
    obtain ⟨h1, h2, h3⟩ := hinv
    simp only [resolveFrom] at h
    split at h
    case h_1 t heq =>
      -- left bracket at `i`: push it
      refine ih instrs (i :: brackets) (i + 1) out (by omega) ⟨?_, ?_, ?_⟩ h
      · intro k hk
        rcases List.mem_cons.mp hk with hki | hkm
        · exact ⟨by omega, t, hki ▸ heq⟩
        · obtain ⟨hlt, ht⟩ := h1 k hkm
          exact ⟨by omega, ht⟩
      · exact List.pairwise_cons.mpr ⟨fun b hb => (h1 b hb).1, h2⟩
      · intro a ha hnot
        have hai : a ≠ i := fun he => hnot (he ▸ List.mem_cons_self a brackets)
        have hnm : a ∉ brackets := fun hm => hnot (List.mem_cons_of_mem _ hm)
        obtain ⟨hL, hR⟩ := h3 a (by omega) hnm
        constructor
        · intro b hb
          obtain ⟨hb1, hb2⟩ := hL b hb
          exact ⟨hb1, by omega⟩
        · intro b hb
          obtain ⟨hb1, hb2, hb3⟩ := hR b hb
          refine ⟨hb1, by omega, fun hmem => ?_⟩
          rcases List.mem_cons.mp hmem with he | hm
          · omega
          · exact hb3 hm
    case h_2 t heq =>
      -- right bracket at `i`: pop and backpatch
      split at h
      case h_1 => cases h
      case h_2 j rest =>
        obtain ⟨hji, t0, hjget⟩ := h1 j (List.mem_cons_self j rest)
        have hij : i ≠ j := by omega
        have hjlt : j < instrs.length := by omega
        have hrest_lt : ∀ b ∈ rest, b < j := by
          intro b hb
          exact (List.pairwise_cons.mp h2).1 b hb
        have h2' : rest.Pairwise (fun a b => b < a) :=
          (List.pairwise_cons.mp h2).2
        set l' := (instrs.set j (LBracket i)).set i (RBracket j) with hl'
        have hlen' : l'.length = instrs.length := by
          simp [hl', List.length_set]
        have hgi : l'[i]? = some (RBracket j) := by
          rw [hl']
          exact List.getElem?_set_self (by simpa [List.length_set] using hilt)
        have hgj : l'[j]? = some (LBracket i) := by
          rw [hl', List.getElem?_set_ne hij]
          exact List.getElem?_set_self hjlt
        have hother : ∀ p, p ≠ i → p ≠ j → l'[p]? = instrs[p]? := by
          intro p hpi hpj
          rw [hl', List.getElem?_set_ne (Ne.symm hpi), List.getElem?_set_ne (Ne.symm hpj)]
        refine ih l' rest (i + 1) out (by omega) ⟨?_, h2', ?_⟩ h
        · intro k hk
          have hkj : k < j := hrest_lt k hk
          obtain ⟨hki, tk, hkget⟩ := h1 k (List.mem_cons_of_mem j hk)
          refine ⟨by omega, tk, ?_⟩
          rw [hother k (by omega) (by omega)]
          exact hkget
        · intro a ha hnot
          by_cases hai : a = i
          · subst hai
            constructor
            · intro b hb
              rw [hgi] at hb
              cases hb
            · intro b hb
              rw [hgi] at hb
              have hbj : b = j := by
                injection hb with hb'
                injection hb' with hb''
                omega
              subst hbj
              refine ⟨hgj, by omega, fun hm => ?_⟩
              exact absurd (hrest_lt b hm) (lt_irrefl b)
          · by_cases haj : a = j
            · subst haj
              constructor
              · intro b hb
                rw [hgj] at hb
                have hbi : b = i := by
                  injection hb with hb'
                  injection hb' with hb''
                  omega
                subst hbi
                exact ⟨hgi, by omega⟩
              · intro b hb
                rw [hgj] at hb
                cases hb
            · have ha' : a < i := by omega
              have hnotb : a ∉ j :: rest := by
                intro hm
                rcases List.mem_cons.mp hm with he | hm2
                · exact haj he
                · exact hnot hm2
              obtain ⟨hL, hR⟩ := h3 a ha' hnotb
              have haget : l'[a]? = instrs[a]? := hother a hai haj
              constructor
              · intro b hb
                rw [haget] at hb
                obtain ⟨hbr, hbi⟩ := hL b hb
                have hbj : b ≠ j := by
                  intro he
                  rw [he, hjget] at hbr
                  cases hbr
                refine ⟨?_, by omega⟩
                rw [hother b (by omega) hbj]
                exact hbr
              · intro b hb
                rw [haget] at hb
                obtain ⟨hbl, hbi, hbnot⟩ := hR b hb
                have hbj : b ≠ j := fun he => hbnot (he ▸ List.mem_cons_self j rest)
                have hbrest : b ∉ rest := fun hm => hbnot (List.mem_cons_of_mem j hm)
                refine ⟨?_, by omega, hbrest⟩
                rw [hother b (by omega) hbj]
                exact hbl
    case h_3 hne1 hne2 =>
      -- a non-bracket instruction (or none) at `i`
      refine ih instrs brackets (i + 1) out (by omega) ⟨?_, h2, ?_⟩ h
      · intro k hk
        obtain ⟨hlt, ht⟩ := h1 k hk
        exact ⟨by omega, ht⟩
      · intro a ha hnot
        by_cases hai : a = i
        · subst hai
          constructor
          · intro b hb
            exact absurd hb (hne1 b)
          · intro b hb
            exact absurd hb (hne2 b)
        · obtain ⟨hL, hR⟩ := h3 a (by omega) hnot
          constructor
          · intro b hb
            obtain ⟨hb1, hb2⟩ := hL b hb
            exact ⟨hb1, by omega⟩
          · intro b hb
            obtain ⟨hb1, hb2, hb3⟩ := hR b hb
            exact ⟨hb1, by omega, hb3⟩

/-- Every successfully parsed program is well-paired. -/
theorem parse_wellPaired (code : List Nat) (p : List BfOp)
    (h : parse code = .ok p) : WellPaired p := by
  refine resolveFrom_ok_wellPaired (tokenize code).length (tokenize code) [] 0 p
    (by omega) ⟨?_, List.Pairwise.nil, ?_⟩ h
  · intro k hk
    cases hk
  · intro a ha
    omega

/-- C1: every successfully parsed program satisfies the mutual
bracket-pairing invariant: a `LBracket` at index `i` with payload `j` is
matched by an `RBracket` at `j` with payload `i`, and vice versa. -/
theorem bracket_pairing (code : List Nat) (p : List BfOp)
    (h : parse code = .ok p) :
    (∀ i j, p[i]? = some (LBracket j) → p[j]? = some (RBracket i)) ∧
    (∀ j i, p[j]? = some (RBracket i) → p[i]? = some (LBracket j)) := by
  obtain ⟨h1, h2⟩ := parse_wellPaired code p h
  exact ⟨h1, fun j i hj => h2 j i hj⟩

/-- Witness for C1 on the source `"[]"`: the pair resolves mutually. -/
theorem bracket_pairing_witness :
    ([LBracket 1, RBracket 0] : List BfOp)[1]? = some (RBracket 0) :=
  (bracket_pairing (bytesOf "[]") [LBracket 1, RBracket 0] rfl).1 0 1 rfl

/-- C10: in a successfully parsed program every jump payload is strictly
below the program length, and hence every executed step leaves the program
counter at most the program length, so instruction fetch stays inside the
program. -/
theorem jump_targets_in_range (code : List Nat) (p : List BfOp)
    (h : parse code = .ok p) :
    (∀ (i j : Nat), p[i]? = some (LBracket j) → j < p.length) ∧
    (∀ (i j : Nat), p[i]? = some (RBracket j) → j < p.length) ∧
    (∀ (s s2 : BfState) (op : BfOp), p[s.pc]? = some op →
      execOp op s = some s2 → s2.pc ≤ p.length) := by
  obtain ⟨h1, h2⟩ := parse_wellPaired code p h
  refine ⟨fun i j hij => lt_of_getElem?_some (h1 i j hij),
    fun i j hij => lt_of_getElem?_some (h2 i j hij), ?_⟩
  intro s s2 op hget hexec
  have hpc : s.pc < p.length := lt_of_getElem?_some hget
  cases op with
  | Gt =>
    simp only [execOp, Option.some.injEq] at hexec
    have hpc2 : s2.pc = s.pc + 1 := by rw [← hexec]
    omega
  | Lt =>
    simp only [execOp, Option.some.injEq] at hexec
    have hpc2 : s2.pc = s.pc + 1 := by rw [← hexec]
    omega
  | Plus =>
    simp only [execOp] at hexec
    split at hexec
    · simp only [Option.some.injEq] at hexec
      have hpc2 : s2.pc = s.pc + 1 := by rw [← hexec]
      omega
    · cases hexec
  | Minus =>
    simp only [execOp] at hexec
    split at hexec
    · simp only [Option.some.injEq] at hexec
      have hpc2 : s2.pc = s.pc + 1 := by rw [← hexec]
      omega
    · cases hexec
  | Dot =>
    simp only [execOp] at hexec
    split at hexec
    · simp only [Option.some.injEq] at hexec
      have hpc2 : s2.pc = s.pc + 1 := by rw [← hexec]
      omega
    · cases hexec
  | Comma =>
    simp only [execOp] at hexec
    split at hexec
    · split at hexec <;>
      · simp only [Option.some.injEq] at hexec
        have hpc2 : s2.pc = s.pc + 1 := by rw [← hexec]
        omega
    · cases hexec
  | LBracket t =>
    have ht : t < p.length := lt_of_getElem?_some (h1 s.pc t hget)
    simp only [execOp] at hexec
    split at hexec
    · simp only [Option.some.injEq] at hexec
      have hpc2 : s2.pc = if s.tape s.ptr = 0 then t + 1 else s.pc + 1 := by
        rw [← hexec]
      split at hpc2 <;> omega
    · cases hexec
  | RBracket t =>
    have ht : t < p.length := lt_of_getElem?_some (h2 s.pc t hget)
    simp only [execOp] at hexec
    split at hexec
    · simp only [Option.some.injEq] at hexec
      have hpc2 : s2.pc = if s.tape s.ptr ≠ 0 then t + 1 else s.pc + 1 := by
        rw [← hexec]
      split at hpc2 <;> omega
    · cases hexec

/-- Witness for C10: stepping the program parsed from `"[]"` at the
initial state jumps the program counter to 2, within the program length. -/
theorem jump_targets_in_range_witness :
    (({ pc := 2, ptr := 0, tape := fun _ => 0, input := [], output := [] } :
      BfState)).pc ≤ ([LBracket 1, RBracket 0] : List BfOp).length :=
  (jump_targets_in_range (bytesOf "[]") [LBracket 1, RBracket 0] rfl).2.2
    (initState []) { pc := 2, ptr := 0, tape := fun _ => 0, input := [], output := [] }
    (LBracket 1) rfl rfl

/-- Overwriting a position with an instruction of the same kind (as seen by
the predicate) leaves every prefix count unchanged. -/
theorem countP_take_set (p : BfOp → Bool) :
    ∀ (l : List BfOp) (j k : Nat) (v : BfOp),
      (∀ w, l[j]? = some w → p v = p w) →
      ((l.set j v).take k).countP p = (l.take k).countP p := by
  intro l
  induction l with
  | nil =>
    intro j k v _
    simp
  | cons a t ih =>
    intro j k v hw
    cases j with
    | zero =>
      cases k with
      | zero => simp
      | succ k =>
        have hpa : p v = p a := hw a List.getElem?_cons_zero
        simp [List.countP_cons, hpa]
    | succ j =>
      cases k with
      | zero => simp
      | succ k =>
        have hw' : ∀ w, t[j]? = some w → p v = p w := by
          intro w h
          exact hw w (by simpa using h)
        simp [List.countP_cons, ih j k v hw']

/-- Prefix counts extend by one position at a time. -/
theorem countP_take_succ (p : BfOp → Bool) (l : List BfOp) (i : Nat)
    (w : BfOp) (hw : l[i]? = some w) :
    (l.take (i + 1)).countP p =
      (l.take i).countP p + if p w then 1 else 0 := by
  rw [List.take_succ, List.countP_append, hw]
  simp [List.countP_cons]

/-- If some prefix of the token list has more right brackets than left
brackets, the resolution pass fails with `UnmatchedRightBracket`. -/
theorem resolveFrom_err_right :
    ∀ (n : Nat) (instrs : List BfOp) (brackets : List Nat) (i : Nat),
      i + n = instrs.length →
      CountInv instrs brackets i →
      (∃ k, k ≤ instrs.length ∧
        opensIn (instrs.take k) < closesIn (instrs.take k)) →
      resolveFrom instrs brackets i n = .error UnmatchedRightBracket := by
  intro n
  induction n with
  | zero =>
    intro instrs brackets i hlen hinv hk
    exfalso
    obtain ⟨h1, h2, h3⟩ := hinv
    obtain ⟨k, hk1, hk2⟩ := hk
    exact absurd (h3 k (by omega)) (by omega)
  | succ n ih =>
    intro instrs brackets i hlen hinv hk
    have hilt : i < instrs.length := by omega
    obtain ⟨h1, h2, h3⟩ := hinv
    obtain ⟨w, hw⟩ : ∃ w, instrs[i]? = some w :=
      ⟨_, List.getElem?_eq_getElem hilt⟩
    have hO := countP_take_succ isLB instrs i w hw
    have hC := countP_take_succ isRB instrs i w hw
    simp only [resolveFrom]
    rw [hw]
    cases w
    case LBracket t =>
      have hO2 : opensIn (instrs.take (i + 1)) = opensIn (instrs.take i) + 1 := by
        simpa [opensIn, isLB] using hO
      have hC2 : closesIn (instrs.take (i + 1)) = closesIn (instrs.take i) := by
        simpa [closesIn, isRB] using hC
      refine ih instrs (i :: brackets) (i + 1) (by omega) ⟨?_, ?_, ?_⟩ hk
      · intro k hkmem
        rcases List.mem_cons.mp hkmem with he | hm
        · exact ⟨t, he ▸ hw⟩
        · exact h1 k hm
      · rw [hO2, hC2]
        simp only [List.length_cons]
        omega
      · intro m hm
        rcases Nat.lt_or_ge m (i + 1) with hlt | hge
        · exact h3 m (by omega)
        · have hm1 : m = i + 1 := by omega
          subst hm1
          have h3i := h3 i (Nat.le_refl i)
          rw [hO2, hC2]
          omega
    case RBracket t =>
      have hO2 : opensIn (instrs.take (i + 1)) = opensIn (instrs.take i) := by
        simpa [opensIn, isLB] using hO
      have hC2 : closesIn (instrs.take (i + 1)) = closesIn (instrs.take i) + 1 := by
        simpa [closesIn, isRB] using hC
      cases brackets with
      | nil => rfl
      | cons j rest =>
        obtain ⟨t0, hjget⟩ := h1 j (List.mem_cons_self j rest)
        have hji : j ≠ i := by
          intro he
          rw [he, hw] at hjget
          cases hjget
        have hjlt : j < instrs.length := lt_of_getElem?_some hjget
        have hOs : ∀ (k : Nat),
            opensIn ((((instrs.set j (LBracket i)).set i (RBracket j))).take k) =
              opensIn (instrs.take k) := by
          intro k
          simp only [opensIn]
          rw [countP_take_set isLB (instrs.set j (LBracket i)) i k (RBracket j) ?hyp2,
            countP_take_set isLB instrs j k (LBracket i) ?hyp1]
          case hyp1 =>
            intro w2 hw2
            rw [hjget] at hw2
            cases hw2
            rfl
          case hyp2 =>
            intro w2 hw2
            rw [List.getElem?_set_ne hji, hw] at hw2
            cases hw2
            rfl
        have hCs : ∀ (k : Nat),
            closesIn ((((instrs.set j (LBracket i)).set i (RBracket j))).take k) =
              closesIn (instrs.take k) := by
          intro k
          simp only [closesIn]
          rw [countP_take_set isRB (instrs.set j (LBracket i)) i k (RBracket j) ?hyp2,
            countP_take_set isRB instrs j k (LBracket i) ?hyp1]
          case hyp1 =>
            intro w2 hw2
            rw [hjget] at hw2
            cases hw2
            rfl
          case hyp2 =>
            intro w2 hw2
            rw [List.getElem?_set_ne hji, hw] at hw2
            cases hw2
            rfl
        refine ih ((instrs.set j (LBracket i)).set i (RBracket j)) rest (i + 1)
          (by simp only [List.length_set]; omega) ⟨?_, ?_, ?_⟩ ?_
        · intro k hkmem
          obtain ⟨tk, hkget⟩ := h1 k (List.mem_cons_of_mem j hkmem)
          have hki : k ≠ i := by
            intro he
            rw [he, hw] at hkget
            cases hkget
          by_cases hkj : k = j
          · subst hkj
            refine ⟨i, ?_⟩
            rw [List.getElem?_set_ne (Ne.symm hki)]
            exact List.getElem?_set_self hjlt
          · refine ⟨tk, ?_⟩
            rw [List.getElem?_set_ne (Ne.symm hki), List.getElem?_set_ne (Ne.symm hkj)]
            exact hkget
        · rw [hOs, hCs, hO2, hC2]
          simp only [List.length_cons] at h2
          omega
        · intro m hm
          rw [hOs, hCs]
          rcases Nat.lt_or_ge m (i + 1) with hlt | hge
          · exact h3 m (by omega)
          · have hm1 : m = i + 1 := by omega
            subst hm1
            simp only [List.length_cons] at h2
            rw [hO2, hC2]
            omega
        · obtain ⟨k, hk1, hk2⟩ := hk
          refine ⟨k, by simp only [List.length_set]; omega, ?_⟩
          rw [hOs, hCs]
          exact hk2
    all_goals
      · have hO2 : opensIn (instrs.take (i + 1)) = opensIn (instrs.take i) := by
          simpa [opensIn, isLB] using hO
        have hC2 : closesIn (instrs.take (i + 1)) = closesIn (instrs.take i) := by
          simpa [closesIn, isRB] using hC
        refine ih instrs brackets (i + 1) (by omega) ⟨h1, ?_, ?_⟩ hk
        · rw [hO2, hC2]
          omega
        · intro m hm
          rcases Nat.lt_or_ge m (i + 1) with hlt | hge
          · exact h3 m (by omega)
          · have hm1 : m = i + 1 := by omega
            subst hm1
            have h3i := h3 i (Nat.le_refl i)
            rw [hO2, hC2]
            omega

/-- If no prefix has a right-bracket surplus but the whole token list has
strictly more left brackets, the resolution pass fails with
`UnmatchedLeftBracket`. -/
theorem resolveFrom_err_left :
    ∀ (n : Nat) (instrs : List BfOp) (brackets : List Nat) (i : Nat),
      i + n = instrs.length →
      CountInv instrs brackets i →
      (∀ m, m ≤ instrs.length →
        closesIn (instrs.take m) ≤ opensIn (instrs.take m)) →
      closesIn instrs < opensIn instrs →
      resolveFrom instrs brackets i n = .error UnmatchedLeftBracket := by
  intro n
  induction n with
  | zero =>
    intro instrs brackets i hlen hinv hpre htot
    obtain ⟨h1, h2, h3⟩ := hinv
    have hi : i = instrs.length := by omega
    subst hi
    rw [List.take_length] at h2
    cases brackets with
    | nil =>
      exfalso
      simp only [List.length_nil] at h2
      omega
    | cons j rest => rfl
  | succ n ih =>
    intro instrs brackets i hlen hinv hpre htot
    have hilt : i < instrs.length := by omega
    obtain ⟨h1, h2, h3⟩ := hinv
    obtain ⟨w, hw⟩ : ∃ w, instrs[i]? = some w :=
      ⟨_, List.getElem?_eq_getElem hilt⟩
    have hO := countP_take_succ isLB instrs i w hw
    have hC := countP_take_succ isRB instrs i w hw
    simp only [resolveFrom]
    rw [hw]
    cases w
    case LBracket t =>
      have hO2 : opensIn (instrs.take (i + 1)) = opensIn (instrs.take i) + 1 := by
        simpa [opensIn, isLB] using hO
      have hC2 : closesIn (instrs.take (i + 1)) = closesIn (instrs.take i) := by
        simpa [closesIn, isRB] using hC
      refine ih instrs (i :: brackets) (i + 1) (by omega) ⟨?_, ?_, ?_⟩ hpre htot
      · intro k hkmem
        rcases List.mem_cons.mp hkmem with he | hm
        · exact ⟨t, he ▸ hw⟩
        · exact h1 k hm
      · rw [hO2, hC2]
        simp only [List.length_cons]
        omega
      · intro m hm
        rcases Nat.lt_or_ge m (i + 1) with hlt | hge
        · exact h3 m (by omega)
        · have hm1 : m = i + 1 := by omega
          subst hm1
          have h3i := h3 i (Nat.le_refl i)
          rw [hO2, hC2]
          omega
    case RBracket t =>
      have hO2 : opensIn (instrs.take (i + 1)) = opensIn (instrs.take i) := by
        simpa [opensIn, isLB] using hO
      have hC2 : closesIn (instrs.take (i + 1)) = closesIn (instrs.take i) + 1 := by
        simpa [closesIn, isRB] using hC
      cases brackets with
      | nil =>
        exfalso
        have hm := hpre (i + 1) (by omega)
        simp only [List.length_nil] at h2
        rw [hO2, hC2] at hm
        omega
      | cons j rest =>
        obtain ⟨t0, hjget⟩ := h1 j (List.mem_cons_self j rest)
        have hji : j ≠ i := by
          intro he
          rw [he, hw] at hjget
          cases hjget
        have hjlt : j < instrs.length := lt_of_getElem?_some hjget
        have hOs : ∀ (k : Nat),
            opensIn ((((instrs.set j (LBracket i)).set i (RBracket j))).take k) =
              opensIn (instrs.take k) := by
          intro k
          simp only [opensIn]
          rw [countP_take_set isLB (instrs.set j (LBracket i)) i k (RBracket j) ?hyp2,
            countP_take_set isLB instrs j k (LBracket i) ?hyp1]
          case hyp1 =>
            intro w2 hw2
            rw [hjget] at hw2
            cases hw2
            rfl
          case hyp2 =>
            intro w2 hw2
            rw [List.getElem?_set_ne hji, hw] at hw2
            cases hw2
            rfl
        have hCs : ∀ (k : Nat),
            closesIn ((((instrs.set j (LBracket i)).set i (RBracket j))).take k) =
              closesIn (instrs.take k) := by
          intro k
          simp only [closesIn]
          rw [countP_take_set isRB (instrs.set j (LBracket i)) i k (RBracket j) ?hyp2,
            countP_take_set isRB instrs j k (LBracket i) ?hyp1]
          case hyp1 =>
            intro w2 hw2
            rw [hjget] at hw2
            cases hw2
            rfl
          case hyp2 =>
            intro w2 hw2
            rw [List.getElem?_set_ne hji, hw] at hw2
            cases hw2
            rfl
        have hlen2 : ((instrs.set j (LBracket i)).set i (RBracket j)).length =
            instrs.length := by
          simp only [List.length_set]
        refine ih ((instrs.set j (LBracket i)).set i (RBracket j)) rest (i + 1)
          (by omega) ⟨?_, ?_, ?_⟩ ?_ ?_
        · intro k hkmem
          obtain ⟨tk, hkget⟩ := h1 k (List.mem_cons_of_mem j hkmem)
          have hki : k ≠ i := by
            intro he
            rw [he, hw] at hkget
            cases hkget
          by_cases hkj : k = j
          · subst hkj
            refine ⟨i, ?_⟩
            rw [List.getElem?_set_ne (Ne.symm hki)]
            exact List.getElem?_set_self hjlt
          · refine ⟨tk, ?_⟩
            rw [List.getElem?_set_ne (Ne.symm hki), List.getElem?_set_ne (Ne.symm hkj)]
            exact hkget
        · rw [hOs, hCs, hO2, hC2]
          simp only [List.length_cons] at h2
          omega
        · intro m hm
          rw [hOs, hCs]
          rcases Nat.lt_or_ge m (i + 1) with hlt | hge
          · exact h3 m (by omega)
          · have hm1 : m = i + 1 := by omega
            subst hm1
            simp only [List.length_cons] at h2
            rw [hO2, hC2]
            omega
        · intro m hm
          rw [hlen2] at hm
          rw [hOs, hCs]
          exact hpre m hm
        · have h4 := hOs instrs.length
          have h5 := hCs instrs.length
          rw [List.take_length] at h4 h5
          rw [show instrs.length = ((instrs.set j (LBracket i)).set i (RBracket j)).length
            from hlen2.symm, List.take_length] at h4 h5
          rw [h4, h5]
          exact htot
    all_goals
      · have hO2 : opensIn (instrs.take (i + 1)) = opensIn (instrs.take i) := by
          simpa [opensIn, isLB] using hO
        have hC2 : closesIn (instrs.take (i + 1)) = closesIn (instrs.take i) := by
          simpa [closesIn, isRB] using hC
        refine ih instrs brackets (i + 1) (by omega) ⟨h1, ?_, ?_⟩ hpre htot
        · rw [hO2, hC2]
          omega
        · intro m hm
          rcases Nat.lt_or_ge m (i + 1) with hlt | hge
          · exact h3 m (by omega)
          · have hm1 : m = i + 1 := by omega
            subst hm1
            have h3i := h3 i (Nat.le_refl i)
            rw [hO2, hC2]
            omega

/-- C6: unmatched-bracket detection.  The sources `"["`, `"]"` and `"[]"`
behave as specified; in general a source in which some prefix of the token
list closes more brackets than it opens fails with
`UnmatchedRightBracket` (a closing bracket arrives while no opening
bracket is pending), and a source with no such prefix but with an excess
of opening brackets overall fails with `UnmatchedLeftBracket` (an opening
bracket is still pending at end of source). -/
theorem unmatched_bracket_detection :
    parse (bytesOf "[") = .error UnmatchedLeftBracket ∧
    parse (bytesOf "]") = .error UnmatchedRightBracket ∧
    parse (bytesOf "[]") = .ok [LBracket 1, RBracket 0] ∧
    (∀ code : List Nat,
      (∃ k, k ≤ (tokenize code).length ∧
        opensIn ((tokenize code).take k) < closesIn ((tokenize code).take k)) →
      parse code = .error UnmatchedRightBracket) ∧
    (∀ code : List Nat,
      (∀ m, m ≤ (tokenize code).length →
        closesIn ((tokenize code).take m) ≤ opensIn ((tokenize code).take m)) →
      closesIn (tokenize code) < opensIn (tokenize code) →
      parse code = .error UnmatchedLeftBracket) := by
  refine ⟨by rfl, by rfl, by rfl, ?_, ?_⟩
  · intro code hk
    refine resolveFrom_err_right (tokenize code).length (tokenize code) [] 0
      (by omega) ⟨?_, ?_, ?_⟩ hk
    · intro k hkmem
      cases hkmem
    · simp [opensIn, closesIn]
    · intro m hm
      have hm0 : m = 0 := by omega
      subst hm0
      simp [opensIn, closesIn]
  · intro code hpre htot
    refine resolveFrom_err_left (tokenize code).length (tokenize code) [] 0
      (by omega) ⟨?_, ?_, ?_⟩ hpre htot
    · intro k hkmem
      cases hkmem
    · simp [opensIn, closesIn]
    · intro m hm
      have hm0 : m = 0 := by omega
      subst hm0
      simp [opensIn, closesIn]

/-- Witness for C6: the source `"]+"` has a prefix with a right-bracket
surplus, so it parses to `UnmatchedRightBracket`. -/
theorem unmatched_bracket_detection_witness :
    parse (bytesOf "]+") = .error UnmatchedRightBracket :=
  unmatched_bracket_detection.2.2.2.1 (bytesOf "]+")
    ⟨1, by decide, by decide⟩

end Bf
